import Mathlib

/-!
Verification of the coverage-attribution engine of mangle-coverage.py.

The program is a line-oriented rewriter of lcov coverage reports.  A record
is a list of tagged lines; the tags the program inspects are SF, FN, FNDA,
FNH, DA and LH, and every other line is carried through verbatim.  We embed
a record as a list of structured lines: the Python code recognises a tag by
string prefix and extracts its comma- or colon-separated fields, and since
function names are C identifiers (no comma) and the numeric fields are
decimal integers, the string tests of the source are equivalent to a match
on the structured form.  Counts and line numbers are embedded as Int,
matching Python integer arithmetic which may go below zero.
-/

/-- One line of a coverage record.  Each constructor holds the fields the
source extracts from the textual line: FN carries its starting line number
and function name, FNDA an execution count and function name, DA a source
line number and execution count, FNH and LH a running aggregate count.
Lines the program does not inspect are kept whole in the other constructor. -/
inductive Line where
  | SF (path : String)
  | FN (lineNo : Int) (name : String)
  | FNDA (cnt : Int) (name : String)
  | FNH (cnt : Int)
  | DA (lineNo : Int) (cnt : Int)
  | LH (cnt : Int)
  | other (raw : String)
deriving DecidableEq

/-- FnRecord from the source: a function span with name, first line, and
last line, where the last line is none for the final function of a record
(its range then has no upper bound).  The namedtuple field end is a Lean
keyword, so it is written end_. -/
structure FnRecord where
  name : String
  start : Int
  end_ : Option Int
deriving DecidableEq

/-- is_fnda_line_for_fn from the source: is this the FNDA line describing
the given function?  The source tests the FNDA prefix and the comma-name
suffix, which on structured lines is a match on the FNDA constructor with
that name. -/
def is_fnda_line_for_fn (line : Line) (fn : String) : Bool :=
  match line with
  | Line.FNDA _ name => decide (name = fn)
  | _ => false

/-- is_line_in_fn from the source: if this is a DA line, does its line
number fall within the closed range from start to end_, where end_ = none
means no upper bound? -/
def is_line_in_fn (line : Line) (start : Int) (end_ : Option Int) : Bool :=
  match line with
  | Line.DA lineNo _ =>
      decide (lineNo ≥ start) &&
        (match end_ with
         | none => true
         | some e => decide (lineNo ≤ e))
  | _ => false

/-- is_static_fn from the source: membership of the function name in the
restricted-visibility list. -/
def is_static_fn (lst : List String) (fn : String) : Bool :=
  decide (fn ∈ lst)

/-- private_fn_with_tested_public from the source: the name starts with
pcmk__ (its first six characters are pcmk__) and replacing that first
occurrence by pcmk_ (which, under the prefix guard, keeps the rest of the
name after the six leading characters) yields a name in the tested
list. -/
def private_fn_with_tested_public (lst : List String) (fn : String) : Bool :=
  fn.take 6 == "pcmk__" && decide (("pcmk_" ++ fn.drop 6) ∈ lst)

/-- fn_executed from the source: the first FNDA line for the function has
a nonzero count; a record with no FNDA line for it counts as not executed. -/
def fn_executed (record : List Line) (fn : String) : Bool :=
  match record.find? (fun l => is_fnda_line_for_fn l fn) with
  | some (Line.FNDA cnt _) => decide (cnt ≠ 0)
  | _ => false

/-- First pass of fns_in_record: one tuple per FN line, in record order,
with the last line still unresolved. -/
def fn_tuples (record : List Line) : List FnRecord :=
  record.filterMap fun l =>
    match l with
    | Line.FN lineNo fn => some ⟨fn, lineNo, none⟩
    | _ => none

/-- Second pass of fns_in_record: every tuple except the last has its end
replaced by the next tuple's start minus one. -/
def fixup_ends : List FnRecord → List FnRecord
  | [] => []
  | [t] => [t]
  | t :: t2 :: rest => ⟨t.name, t.start, some (t2.start - 1)⟩ :: fixup_ends (t2 :: rest)

/-- fns_in_record from the source: the ordered list of function spans of a
record, one per FN line. -/
def fns_in_record (record : List Line) : List FnRecord :=
  fixup_ends (fn_tuples record)

/-- Line-number accessor used by the DA branch of the rewriter (the source
re-splits the DA line there); 0 outside DA lines, where it is never read. -/
def line_no_of (l : Line) : Int :=
  match l with
  | Line.DA lineNo _ => lineNo
  | _ => 0

/-- Count accessor for DA lines; 0 outside DA lines, where it is never read. -/
def da_count_of (l : Line) : Int :=
  match l with
  | Line.DA _ cnt => cnt
  | _ => 0

/-- Count accessor for the FNH and LH aggregate lines; 0 elsewhere, where
it is never read. -/
def agg_count_of (l : Line) : Int :=
  match l with
  | Line.FNH cnt => cnt
  | Line.LH cnt => cnt
  | _ => 0

/-- Tag test for FNH lines. -/
def is_fnh_line (l : Line) : Bool :=
  match l with
  | Line.FNH _ => true
  | _ => false

/-- Tag test for LH lines. -/
def is_lh_line (l : Line) : Bool :=
  match l with
  | Line.LH _ => true
  | _ => false

/-- Loop body of erase_function_from_record: walks the record keeping the
running executed_lines counter, mirroring the if/elif chain of the source:
the FNDA line for the function is reset to count 0; an FNH line is
decremented by one; a DA line inside the span is reset to count 0,
bumping executed_lines when its original count was nonzero; an LH line is
decremented by the executed_lines accumulated so far; anything else passes
through. -/
def eraseGo (fr : FnRecord) : List Line → Nat → List Line
  | [], _ => []
  | line :: rest, executed_lines =>
    if is_fnda_line_for_fn line fr.name then
      Line.FNDA 0 fr.name :: eraseGo fr rest executed_lines
    else if is_fnh_line line then
      Line.FNH (agg_count_of line - 1) :: eraseGo fr rest executed_lines
    else if is_line_in_fn line fr.start fr.end_ then
      Line.DA (line_no_of line) 0 ::
        eraseGo fr rest (if da_count_of line ≠ 0 then executed_lines + 1 else executed_lines)
    else if is_lh_line line then
      Line.LH (agg_count_of line - executed_lines) :: eraseGo fr rest executed_lines
    else
      line :: eraseGo fr rest executed_lines

/-- erase_function_from_record from the source: remove a function's
coverage from a record, starting with executed_lines = 0. -/
def erase_function_from_record (record : List Line) (fr : FnRecord) : List Line :=
  eraseGo fr record 0

/-- The NodeNotFound exception raised by the graph library when a path
query names an absent node; it carries the queried endpoint names. -/
structure NodeNotFound where
  source : String
  target : String
deriving DecidableEq

/-- Nodes of an edge-list call graph: every endpoint of an edge.  The graph
library creates both endpoints of every added edge and no other nodes. -/
def graphNodes (g : List (String × String)) : List String :=
  g.flatMap fun e => [e.1, e.2]

/-- Direct callees of a node in the edge list. -/
def succs (g : List (String × String)) (n : String) : List String :=
  (g.filter fun e => e.1 == n).map fun e => e.2

/-- One expansion step of the reachable set: keep the set and add every
direct callee of a member. -/
def stepSet (g : List (String × String)) (s : List String) : List String :=
  s ++ s.flatMap (succs g)

/-- All nodes reachable from a start node by a directed path of length ≥ 0:
expanding one edge at a time, 2 * edges + 1 rounds exceed the longest
simple path, so the iteration has reached its fixpoint. -/
def reachSet (g : List (String × String)) (s : String) : List String :=
  (stepSet g)^[2 * g.length + 1] [s]

/-- Path existence between two present nodes. -/
def reachableB (g : List (String × String)) (s t : String) : Bool :=
  decide (t ∈ reachSet g s)

/-- Modelled from the graph library used by the source (networkx): has_path
raises NodeNotFound when either endpoint is not a node of the graph, and
otherwise reports whether a directed path (length ≥ 0) exists. -/
def nx_has_path (g : List (String × String)) (s t : String) : Except NodeNotFound Bool :=
  if s ∈ graphNodes g ∧ t ∈ graphNodes g then Except.ok (reachableB g s t)
  else Except.error ⟨s, t⟩

/-- nothing_calls_fn from the source: true when no candidate anchor has a
path to fn.  A NodeNotFound failure is swallowed (the candidate is skipped)
exactly for the hard-coded allow-listed name pairs, and re-raised for every
other pair. -/
def nothing_calls_fn (callgraph : List (String × String)) :
    List FnRecord → String → Except NodeNotFound Bool
  | [], _ => Except.ok true
  | c :: cs, fn =>
    match nx_has_path callgraph c.name fn with
    | Except.ok true => Except.ok false
    | Except.ok false => nothing_calls_fn callgraph cs fn
    | Except.error e =>
      if c.name == "pcmk__starts_with" &&
          ["ends_with", "pcmk__str_hash", "pcmk__strcase_equal",
           "pcmk__strcase_hash", "copy_str_table_entry"].contains fn then
        nothing_calls_fn callgraph cs fn
      else if c.name == "pe__cmp_rsc_priority" && fn == "resource_node_score" then
        nothing_calls_fn callgraph cs fn
      else
        Except.error e

/-- One iteration of the per-function loop of the attribution engine
(the body of the for fr in fns loop in the source), acting on the pair of
the current record text and the current anchor list public_tested_fns. -/
def process_fn_step (tested static : List String) (cg : List (String × String))
    (st : List Line × List FnRecord) (fr : FnRecord) :
    Except NodeNotFound (List Line × List FnRecord) :=
  if !fn_executed st.1 fr.name then
    Except.ok st
  else if private_fn_with_tested_public tested fr.name then
    Except.ok (st.1, st.2 ++ [fr])
  else if is_static_fn static fr.name then
    match nothing_calls_fn cg st.2 fr.name with
    | Except.error e => Except.error e
    | Except.ok true => Except.ok (erase_function_from_record st.1 fr, st.2)
    | Except.ok false => Except.ok st
  else if !decide (fr.name ∈ tested) then
    Except.ok (erase_function_from_record st.1 fr, st.2)
  else
    Except.ok st

/-- The per-function loop of the attribution engine, threading the record
and the anchor list through the steps and propagating a raised
NodeNotFound. -/
def processFns (tested static : List String) (cg : List (String × String)) :
    List FnRecord → List Line × List FnRecord →
    Except NodeNotFound (List Line × List FnRecord)
  | [], st => Except.ok st
  | fr :: rest, st =>
    match process_fn_step tested static cg st fr with
    | Except.error e => Except.error e
    | Except.ok st2 => processFns tested static cg rest st2

/-- Per-record processing of the source's main loop once a call graph has
been loaded: seed the anchor list with the record's tested, non-static
functions and run the per-function loop. -/
def process_record (tested static : List String) (cg : List (String × String))
    (r : List Line) : Except NodeNotFound (List Line) :=
  let fns := fns_in_record r
  let anchors := fns.filter fun f =>
    decide (f.name ∈ tested) && !is_static_fn static f.name
  match processFns tested static cg fns (r, anchors) with
  | Except.error e => Except.error e
  | Except.ok st => Except.ok st.1

/-- The record loop of the source's entry point.  Locating and parsing the
call-graph artifact for a record (find_callgraph_file composed with
build_call_graph, both file-system collaborators) is abstracted as the
getcg lookup; when it yields none the source executes continue, which also
skips the print, so the record is absent from the output. -/
def run_records (tested static : List String)
    (getcg : List Line → Option (List (String × String))) :
    List (List Line) → Except NodeNotFound (List (List Line))
  | [] => Except.ok []
  | r :: rest =>
    match getcg r with
    | none => run_records tested static getcg rest
    | some cg =>
      match process_record tested static cg r with
      | Except.error e => Except.error e
      | Except.ok r2 =>
        match run_records tested static getcg rest with
        | Except.error e => Except.error e
        | Except.ok done => Except.ok (r2 :: done)

/-- Membership of a source line number in a span's closed range, the range
test of is_line_in_fn lifted to a bare line number. -/
def in_span (fr : FnRecord) (n : Int) : Bool :=
  decide (n ≥ fr.start) &&
    (match fr.end_ with
     | none => true
     | some e => decide (n ≤ e))

/-- Two spans whose line ranges share no line number. -/
def span_disjoint (a b : FnRecord) : Prop :=
  ∀ n : Int, ¬(in_span a n = true ∧ in_span b n = true)

/-- A DA line inside the span whose original count is nonzero: exactly the
lines for which the rewriter bumps executed_lines. -/
def hit_in_span (fr : FnRecord) (l : Line) : Bool :=
  match l with
  | Line.DA lineNo cnt => in_span fr lineNo && decide (cnt ≠ 0)
  | _ => false

/-- Contribution of one line to the running executed_lines counter. -/
def contrib (fr : FnRecord) (l : Line) : Nat :=
  if hit_in_span fr l then 1 else 0

/-- Total number of previously-hit lines inside the span over a whole
record: what the claim calls the number of in-range DA lines whose
original count was nonzero. -/
def executed_total (r : List Line) (fr : FnRecord) : Nat :=
  r.countP fun l => hit_in_span fr l

/-- Per-line rewrite described by the erase contract of the spec, with the
amount e subtracted from an LH line supplied by the caller: the FNDA line
for the span's name is forced to count 0, an in-range DA line is forced to
count 0, an FNH line is decremented by exactly 1, an LH line is
decremented by e, every other line is unchanged. -/
def eraseLine (fr : FnRecord) (e : Nat) (l : Line) : Line :=
  match l with
  | Line.FNDA cnt name =>
      if name = fr.name then Line.FNDA 0 fr.name else Line.FNDA cnt name
  | Line.FNH cnt => Line.FNH (cnt - 1)
  | Line.DA lineNo cnt =>
      if in_span fr lineNo then Line.DA lineNo 0 else Line.DA lineNo cnt
  | Line.LH cnt => Line.LH (cnt - e)
  | l => l

/-- The erase contract with the running subtraction: each LH line is
decremented by the executed in-range lines accumulated so far.  This is
the per-line reading of the rewriter against which the source loop is
proved equal. -/
def spec_erase_acc (fr : FnRecord) : List Line → Nat → List Line
  | [], _ => []
  | l :: rest, e => eraseLine fr e l :: spec_erase_acc fr rest (e + contrib fr l)

/-- The erase contract exactly as the claim states it: every LH line is
decremented by the total number of in-range DA lines whose original count
was nonzero, wherever the LH line sits in the record. -/
def spec_erase_total (r : List Line) (fr : FnRecord) : List Line :=
  r.map (eraseLine fr (executed_total r fr))

/-- An FNDA line with nonzero count. -/
def fnda_nonzero (l : Line) : Bool :=
  match l with
  | Line.FNDA cnt _ => decide (cnt ≠ 0)
  | _ => false

/-- A DA line with nonzero count. -/
def da_nonzero (l : Line) : Bool :=
  match l with
  | Line.DA _ cnt => decide (cnt ≠ 0)
  | _ => false

/-- Number of FNDA lines with nonzero count in a record. -/
def countNonzeroFNDA (r : List Line) : Nat :=
  r.countP fun l => fnda_nonzero l

/-- Number of DA lines with nonzero count in a record. -/
def countNonzeroDA (r : List Line) : Nat :=
  r.countP fun l => da_nonzero l

/-- Every FNH line of the record states the number of FNDA lines with
nonzero count. -/
def fnhOkB (r : List Line) : Bool :=
  r.all fun l =>
    match l with
    | Line.FNH cnt => decide (cnt = (countNonzeroFNDA r : Int))
    | _ => true

/-- Every LH line of the record states the number of DA lines with nonzero
count. -/
def lhOkB (r : List Line) : Bool :=
  r.all fun l =>
    match l with
    | Line.LH cnt => decide (cnt = (countNonzeroDA r : Int))
    | _ => true

/-- Tag test for DA lines. -/
def is_da_line (l : Line) : Bool :=
  match l with
  | Line.DA _ _ => true
  | _ => false

/-- No DA line appears after any LH line, as in the lcov format where the
LH total closes the DA block. -/
def daBeforeLHB : List Line → Bool
  | [] => true
  | l :: rest =>
    (if is_lh_line l then !(rest.any is_da_line) else true) && daBeforeLHB rest

/-- Number of FNDA lines a record holds for a given function name. -/
def fndaCountFor (r : List Line) (fn : String) : Nat :=
  r.countP fun l => is_fnda_line_for_fn l fn

/-- An FNDA line for the given name whose count is nonzero. -/
def fnda_hit_for (fn : String) (l : Line) : Bool :=
  match l with
  | Line.FNDA cnt name => decide (name = fn) && decide (cnt ≠ 0)
  | _ => false

/-- Repeated erasure: apply erase_function_from_record for each span in
turn. -/
def eraseAll (r : List Line) (spans : List FnRecord) : List Line :=
  spans.foldl erase_function_from_record r

/-- Side condition of a sequence of erasures: at the moment each span is
erased, the record holds exactly one FNDA line for its name and that line
has nonzero count (the function counts as executed). -/
def SeqOkB : List Line → List FnRecord → Bool
  | _, [] => true
  | r, fr :: frs =>
    (fndaCountFor r fr.name == 1) && fn_executed r fr.name &&
      SeqOkB (erase_function_from_record r fr) frs

/-- The first FNH aggregate of a record, when present. -/
def fnh_value (r : List Line) : Option Int :=
  r.findSome? fun l =>
    match l with
    | Line.FNH cnt => some cnt
    | _ => none

/-- The first LH aggregate of a record, when present. -/
def lh_value (r : List Line) : Option Int :=
  r.findSome? fun l =>
    match l with
    | Line.LH cnt => some cnt
    | _ => none

/-- Tag test for FN lines. -/
def is_fn_line (l : Line) : Bool :=
  match l with
  | Line.FN _ _ => true
  | _ => false

/-- Name and starting line declared by an FN line. -/
def fn_line_data (l : Line) : Option (String × Int) :=
  match l with
  | Line.FN lineNo fn => some (fn, lineNo)
  | _ => none

/-- The allow-list of (anchor, target) pairs for which nothing_calls_fn
swallows a NodeNotFound failure, exactly as hard-coded in the source. -/
def allow_pair (anchor fn : String) : Bool :=
  (anchor == "pcmk__starts_with" &&
    ["ends_with", "pcmk__str_hash", "pcmk__strcase_equal",
     "pcmk__strcase_hash", "copy_str_table_entry"].contains fn) ||
  (anchor == "pe__cmp_rsc_priority" && fn == "resource_node_score")

/-- Record used in counterexamples about omitted records: an ordinary
record for one source file with one executed function. -/
def rNoGraph : List Line :=
  [Line.SF "lib/common/a.c", Line.FN 1 "f", Line.FNDA 1 "f",
   Line.FNH 1, Line.DA 1 1, Line.LH 1]

/-- Record with an LH line placed before its DA lines: the aggregates are
initially consistent, yet erasure decrements LH by nothing. -/
def rLHFirst : List Line :=
  [Line.LH 1, Line.DA 10 1]

/-- Span of the function starting at line 10, open-ended. -/
def frAt10 : FnRecord := ⟨"f", 10, none⟩

/-- Initially consistent record whose LH line precedes its DA line. -/
def rLHEarly : List Line :=
  [Line.FNDA 1 "f", Line.FNH 1, Line.LH 1, Line.DA 10 1]

/-- Record whose function f is already erased (FNDA count 0, in-range DA
count 0). -/
def rErased : List Line :=
  [Line.FNDA 0 "f", Line.FNH 3, Line.DA 10 0, Line.LH 7]

/-- Record of the proxy-ordering counterexample: the static function
helper is declared at line 10, before the proxy pcmk__pub at line 20;
both were executed. -/
def rProxy : List Line :=
  [Line.SF "lib/common/a.c", Line.FN 10 "helper", Line.FN 20 "pcmk__pub",
   Line.FNDA 3 "helper", Line.FNDA 5 "pcmk__pub",
   Line.DA 12 3, Line.DA 22 5, Line.FNH 2, Line.LH 2]

/-- What the engine actually produces on rProxy: helper erased even though
the call graph records that pcmk__pub calls helper. -/
def rProxyOut : List Line :=
  [Line.SF "lib/common/a.c", Line.FN 10 "helper", Line.FN 20 "pcmk__pub",
   Line.FNDA 0 "helper", Line.FNDA 5 "pcmk__pub",
   Line.DA 12 0, Line.DA 22 5, Line.FNH 1, Line.LH 1]

/-- The well-formed record of the spec's first scenario, used as a witness
input. -/
def rScenario : List Line :=
  [Line.FN 10 "helper", Line.FN 20 "pub", Line.FNDA 3 "helper",
   Line.FNDA 5 "pub", Line.DA 12 3, Line.DA 22 5, Line.FNH 2, Line.LH 2]

/-- Rewrite of a record in which only the FNH aggregates change, each
decremented by one: the per-line effect of erasing a function whose own
count and in-range line counts are already zero. -/
def only_fnh_decremented (r : List Line) : List Line :=
  r.map fun l =>
    match l with
    | Line.FNH cnt => Line.FNH (cnt - 1)
    | l => l

theorem eraseGo_eq_spec (fr : FnRecord) :
    ∀ (r : List Line) (e : Nat), eraseGo fr r e = spec_erase_acc fr r e := by
  intro r
  induction r with
  | nil => intro e; rfl
  | cons l rest ih =>
    intro e
    cases l with
    | SF p =>
      simp [eraseGo, spec_erase_acc, eraseLine, contrib, is_fnda_line_for_fn,
        is_fnh_line, is_line_in_fn, is_lh_line, hit_in_span, ih]
    | FN ln n =>
      simp [eraseGo, spec_erase_acc, eraseLine, contrib, is_fnda_line_for_fn,
        is_fnh_line, is_line_in_fn, is_lh_line, hit_in_span, ih]
    | FNDA c n =>
      by_cases h : n = fr.name <;>
        simp [eraseGo, spec_erase_acc, eraseLine, contrib, is_fnda_line_for_fn,
          is_fnh_line, is_line_in_fn, is_lh_line, hit_in_span, h, ih]
    | FNH c =>
      simp [eraseGo, spec_erase_acc, eraseLine, contrib, is_fnda_line_for_fn,
        is_fnh_line, is_line_in_fn, is_lh_line, hit_in_span, agg_count_of, ih]
    | DA ln c =>
      have hspan : is_line_in_fn (Line.DA ln c) fr.start fr.end_ = in_span fr ln := rfl
      by_cases hin : in_span fr ln = true
      · by_cases hc : c = 0 <;>
          simp [eraseGo, spec_erase_acc, eraseLine, contrib, is_fnda_line_for_fn,
            is_fnh_line, is_lh_line, hit_in_span, hspan, hin, hc, line_no_of,
            da_count_of, ih]
      · simp [eraseGo, spec_erase_acc, eraseLine, contrib, is_fnda_line_for_fn,
          is_fnh_line, is_lh_line, hit_in_span, hspan, hin, ih]
    | LH c =>
      simp [eraseGo, spec_erase_acc, eraseLine, contrib, is_fnda_line_for_fn,
        is_fnh_line, is_line_in_fn, is_lh_line, hit_in_span, agg_count_of, ih]
    | other s =>
      simp [eraseGo, spec_erase_acc, eraseLine, contrib, is_fnda_line_for_fn,
        is_fnh_line, is_line_in_fn, is_lh_line, hit_in_span, ih]

theorem erase_eq_spec (r : List Line) (fr : FnRecord) :
    erase_function_from_record r fr = spec_erase_acc fr r 0 := by
  rw [erase_function_from_record, eraseGo_eq_spec]

theorem executed_total_cons (fr : FnRecord) (l : Line) (rest : List Line) :
    executed_total (l :: rest) fr = contrib fr l + executed_total rest fr := by
  simp [executed_total, contrib, List.countP_cons]
  by_cases h : hit_in_span fr l = true
  · simp [h]; omega
  · simp [h]

theorem executed_total_of_no_da (fr : FnRecord) :
    ∀ r : List Line, r.any is_da_line = false → executed_total r fr = 0 := by
  intro r
  induction r with
  | nil => intro; rfl
  | cons l rest ih =>
    intro h
    rw [List.any_cons] at h
    have h1 : is_da_line l = false := by
      cases hda : is_da_line l
      · rfl
      · rw [hda] at h; simp at h
    have h2 : rest.any is_da_line = false := by
      cases hda : rest.any is_da_line
      · rfl
      · rw [hda] at h; simp at h
    rw [executed_total_cons, ih h2]
    have hl : hit_in_span fr l = false := by
      cases l <;> simp_all [hit_in_span, is_da_line]
    simp [contrib, hl]

theorem spec_acc_of_da_before_lh (fr : FnRecord) :
    ∀ (r : List Line), daBeforeLHB r = true →
      ∀ e : Nat, spec_erase_acc fr r e = r.map (eraseLine fr (e + executed_total r fr)) := by
  intro r
  induction r with
  | nil => intro _ e; rfl
  | cons l rest ih =>
    intro h e
    rw [daBeforeLHB] at h
    have h2 : daBeforeLHB rest = true := by
      cases hr : daBeforeLHB rest
      · rw [hr] at h; simp at h
      · rfl
    have hhead : (if is_lh_line l then !(rest.any is_da_line) else true) = true := by
      cases hc : (if is_lh_line l then !(rest.any is_da_line) else true)
      · rw [hc] at h; simp at h
      · rfl
    rw [spec_erase_acc, List.map_cons, executed_total_cons]
    have htail : spec_erase_acc fr rest (e + contrib fr l) =
        rest.map (eraseLine fr ((e + contrib fr l) + executed_total rest fr)) := ih h2 _
    rw [htail]
    have harith : (e + contrib fr l) + executed_total rest fr =
        e + (contrib fr l + executed_total rest fr) := by omega
    rw [harith]
    cases l with
    | LH c =>
      have hda : rest.any is_da_line = false := by
        simp [is_lh_line] at hhead
        cases hr : rest.any is_da_line
        · rfl
        · exfalso
          rcases List.any_eq_true.mp hr with ⟨x, hx, hpx⟩
          have hxf := hhead x hx
          rw [hpx] at hxf
          exact Bool.noConfusion hxf
      have h0 : executed_total rest fr = 0 := executed_total_of_no_da fr rest hda
      have hc0 : contrib fr (Line.LH c) = 0 := by simp [contrib, hit_in_span]
      simp [eraseLine, h0, hc0]
    | SF p => simp [eraseLine, contrib, hit_in_span]
    | FN ln n => simp [eraseLine, contrib, hit_in_span]
    | FNDA c n => simp [eraseLine, contrib, hit_in_span]
    | FNH c => simp [eraseLine, contrib, hit_in_span]
    | DA ln c => simp [eraseLine, contrib, hit_in_span]
    | other s => simp [eraseLine, contrib, hit_in_span]

/-- C2 counterexample: on a record whose LH line precedes its DA lines,
erase does not decrement LH by the total number of in-range
originally-nonzero DA lines, contradicting the claim as stated: the code
leaves LH 1 where the claim requires LH 0. -/
theorem erase_lh_claim_counterexample :
    erase_function_from_record rLHFirst frAt10 = [Line.LH 1, Line.DA 10 0] ∧
      spec_erase_total rLHFirst frAt10 = [Line.LH 0, Line.DA 10 0] ∧
      erase_function_from_record rLHFirst frAt10 ≠ spec_erase_total rLHFirst frAt10 := by
  refine ⟨by decide, by decide, by decide⟩

theorem erase_total_of_da_before_lh (r : List Line) (fr : FnRecord)
    (h : daBeforeLHB r = true) :
    erase_function_from_record r fr = spec_erase_total r fr := by
  rw [erase_eq_spec, spec_acc_of_da_before_lh fr r h 0, spec_erase_total, Nat.zero_add]

/-- C2 (amended): for every record in which every DA line precedes every
LH line (as in the lcov format), erase(record, span) returns the record
in which the FNDA line for the span's name has count 0, every in-range DA
line has count 0, every FNH aggregate is decremented by exactly 1, every
LH aggregate is decremented by the number of in-range DA lines whose
original count was nonzero, and every other line is unchanged. -/
theorem erase_contract_when_da_before_lh (r : List Line) (fr : FnRecord)
    (h : daBeforeLHB r = true) :
    erase_function_from_record r fr = spec_erase_total r fr :=
  erase_total_of_da_before_lh r fr h

/-- Witness for the amended C2 contract at the spec's scenario record. -/
theorem erase_contract_when_da_before_lh_witness :
    daBeforeLHB rScenario = true ∧
      erase_function_from_record rScenario ⟨"helper", 10, some 19⟩ =
        spec_erase_total rScenario ⟨"helper", 10, some 19⟩ :=
  ⟨by decide, erase_contract_when_da_before_lh rScenario ⟨"helper", 10, some 19⟩ (by decide)⟩

/-- C4 counterexample: erasing a function whose FNDA count is already 0 is
not a no-op on the aggregates: the FNH aggregate is still decremented (3
becomes 2). -/
theorem erase_already_erased_counterexample :
    fn_executed rErased "f" = false ∧
      fnh_value rErased = some 3 ∧
      fnh_value (erase_function_from_record rErased frAt10) = some 2 ∧
      fnh_value (erase_function_from_record rErased frAt10) ≠ fnh_value rErased := by
  refine ⟨by decide, by decide, by decide, by decide⟩

/-- C4 (amended): erasing a span all of whose in-range DA lines already
have count 0 and whose FNDA lines for the span's name already have count 0
(the state after a previous erasure) leaves every FNDA, DA and LH line
unchanged, but still decrements every FNH aggregate by 1; it is not a
no-op on FNH.  The source algorithm avoids the double decrement by only
invoking erase on executed functions. -/
theorem erase_already_erased_fnh_only (r : List Line) (fr : FnRecord)
    (hda : r.all (fun l => !hit_in_span fr l) = true)
    (hfnda : r.all (fun l => !fnda_hit_for fr.name l) = true) :
    erase_function_from_record r fr = only_fnh_decremented r := by
  rw [erase_eq_spec]
  rw [List.all_eq_true] at hda hfnda
  induction r with
  | nil => rfl
  | cons l rest ih =>
    have hl : hit_in_span fr l = false := by
      have := hda l (List.mem_cons_self l rest)
      cases hv : hit_in_span fr l
      · rfl
      · rw [hv] at this; exact Bool.noConfusion this
    have hcz : contrib fr l = 0 := by simp [contrib, hl]
    rw [spec_erase_acc, hcz, Nat.add_zero, only_fnh_decremented, List.map_cons]
    have htail := ih (fun x hx => hda x (List.mem_cons_of_mem l hx))
      (fun x hx => hfnda x (List.mem_cons_of_mem l hx))
    rw [only_fnh_decremented] at htail
    rw [htail]
    cases l with
    | FNDA c n =>
      by_cases hn : n = fr.name
      · have hz := hfnda (Line.FNDA c n) (List.mem_cons_self _ rest)
        have hc0 : c = 0 := by
          by_contra hc
          simp [fnda_hit_for, hn, hc] at hz
        simp [eraseLine, hn, hc0]
      · simp [eraseLine, hn]
    | DA ln c =>
      by_cases hin : in_span fr ln = true
      · have hc0 : c = 0 := by
          by_contra hc
          simp [hit_in_span, hin, hc] at hl
        simp [eraseLine, hin, hc0]
      · simp [eraseLine, hin]
    | LH c => simp [eraseLine]
    | FNH c => simp [eraseLine]
    | SF p => simp [eraseLine]
    | FN ln n => simp [eraseLine]
    | other s => simp [eraseLine]

/-- Witness for the amended C4 statement on the already-erased record. -/
theorem erase_already_erased_fnh_only_witness :
    rErased.all (fun l => !hit_in_span frAt10 l) = true ∧
      erase_function_from_record rErased frAt10 = only_fnh_decremented rErased :=
  ⟨by decide, erase_already_erased_fnh_only rErased frAt10 (by decide) (by decide)⟩

theorem span_disjoint_symm {a b : FnRecord} (h : span_disjoint a b) :
    span_disjoint b a :=
  fun n hn => h n ⟨hn.2, hn.1⟩

theorem eraseLine_comm {a b : FnRecord} (h : span_disjoint a b)
    (e1 e2 : Nat) (l : Line) :
    eraseLine b e2 (eraseLine a e1 l) = eraseLine a e1 (eraseLine b e2 l) := by
  cases l with
  | SF p => rfl
  | FN ln n => rfl
  | other s => rfl
  | FNH c => simp [eraseLine]
  | LH c => simp [eraseLine]; omega
  | FNDA c n =>
    by_cases h1 : n = a.name <;> by_cases h2 : n = b.name
    · have hab : a.name = b.name := h1.symm.trans h2
      simp [eraseLine, h1, h2, hab]
    · have hab : ¬(a.name = b.name) := fun he => h2 (h1.trans he)
      have hba : ¬(b.name = a.name) := fun he => hab he.symm
      simp [eraseLine, h1, h2, hab, hba]
    · have hab : ¬(b.name = a.name) := fun he => h1 (h2.trans he)
      have hba : ¬(a.name = b.name) := fun he => hab he.symm
      simp [eraseLine, h1, h2, hab, hba]
    · simp [eraseLine, h1, h2]
  | DA ln c =>
    by_cases hA : in_span a ln = true <;> by_cases hB : in_span b ln = true
    · exact absurd ⟨hA, hB⟩ (h ln)
    · simp [eraseLine, hA, hB]
    · simp [eraseLine, hA, hB]
    · simp [eraseLine, hA, hB]

theorem contrib_eraseLine {a b : FnRecord} (h : span_disjoint a b)
    (e : Nat) (l : Line) : contrib b (eraseLine a e l) = contrib b l := by
  cases l with
  | SF p => rfl
  | FN ln n => rfl
  | other s => rfl
  | FNH c => rfl
  | LH c => rfl
  | FNDA c n =>
    by_cases h1 : n = a.name <;> simp [eraseLine, contrib, hit_in_span, h1]
  | DA ln c =>
    by_cases hA : in_span a ln = true
    · have hB : ¬(in_span b ln = true) := fun hb => h ln ⟨hA, hb⟩
      simp [eraseLine, contrib, hit_in_span, hA, hB]
    · simp [eraseLine, contrib, hit_in_span, hA]

theorem spec_acc_comm {a b : FnRecord} (h : span_disjoint a b) :
    ∀ (r : List Line) (e1 e2 : Nat),
      spec_erase_acc b (spec_erase_acc a r e1) e2 =
        spec_erase_acc a (spec_erase_acc b r e2) e1 := by
  intro r
  induction r with
  | nil => intro e1 e2; rfl
  | cons l rest ih =>
    intro e1 e2
    rw [spec_erase_acc, spec_erase_acc, spec_erase_acc, spec_erase_acc,
      eraseLine_comm h, contrib_eraseLine h, contrib_eraseLine (span_disjoint_symm h),
      ih]

theorem erase_comm {a b : FnRecord} (h : span_disjoint a b) (r : List Line) :
    erase_function_from_record (erase_function_from_record r a) b =
      erase_function_from_record (erase_function_from_record r b) a := by
  rw [erase_eq_spec r a, erase_eq_spec r b,
    erase_eq_spec _ b, erase_eq_spec _ a, spec_acc_comm h]

/-- C8: for any two function spans with disjoint line ranges, erasing both
from a record yields the same FNH and LH aggregates in either order of
application (indeed the same record). -/
theorem disjoint_erasures_commute (r : List Line) (a b : FnRecord)
    (h : span_disjoint a b) :
    fnh_value (eraseAll r [a, b]) = fnh_value (eraseAll r [b, a]) ∧
      lh_value (eraseAll r [a, b]) = lh_value (eraseAll r [b, a]) ∧
      eraseAll r [a, b] = eraseAll r [b, a] := by
  have hq : eraseAll r [a, b] = eraseAll r [b, a] := by
    simp only [eraseAll, List.foldl]
    exact erase_comm h r
  exact ⟨congrArg fnh_value hq, congrArg lh_value hq, hq⟩

/-- Witness for C8 at the scenario record and its two disjoint spans. -/
theorem disjoint_erasures_commute_witness :
    eraseAll rScenario [⟨"helper", 10, some 19⟩, ⟨"pub", 20, none⟩] =
      eraseAll rScenario [⟨"pub", 20, none⟩, ⟨"helper", 10, some 19⟩] := by
  have h := disjoint_erasures_commute rScenario ⟨"helper", 10, some 19⟩
    ⟨"pub", 20, none⟩ ?_
  · exact h.2.2
  · intro n hn
    rcases hn with ⟨h1, h2⟩
    simp [in_span] at h1 h2
    omega

theorem countP_hit_le_countP_fnda (fn : String) :
    ∀ r : List Line,
      r.countP (fnda_hit_for fn) ≤ r.countP (fun l => is_fnda_line_for_fn l fn) := by
  intro r
  induction r with
  | nil => simp
  | cons l rest ih =>
    rw [List.countP_cons, List.countP_cons]
    have hle : (if fnda_hit_for fn l = true then 1 else 0) ≤
        (if is_fnda_line_for_fn l fn = true then 1 else 0) := by
      by_cases hh : fnda_hit_for fn l = true
      · have hp : is_fnda_line_for_fn l fn = true := by
          cases l <;> simp_all [fnda_hit_for, is_fnda_line_for_fn]
        simp [hh, hp]
      · simp [hh]
    omega

theorem fn_executed_cons_of_not_fnda (l : Line) (rest : List Line) (fn : String)
    (h : is_fnda_line_for_fn l fn = false) :
    fn_executed (l :: rest) fn = fn_executed rest fn := by
  simp [fn_executed, List.find?_cons, h]

theorem countP_hit_of_unique_executed :
    ∀ (r : List Line) (fn : String),
      fndaCountFor r fn = 1 → fn_executed r fn = true →
      r.countP (fnda_hit_for fn) = 1 := by
  intro r
  induction r with
  | nil => intro fn hu _; simp [fndaCountFor] at hu
  | cons l rest ih =>
    intro fn hu hx
    by_cases hp : is_fnda_line_for_fn l fn = true
    · cases l with
      | FNDA c n =>
        have hn : n = fn := by simpa [is_fnda_line_for_fn] using hp
        have hrest0 : rest.countP (fun l => is_fnda_line_for_fn l fn) = 0 := by
          rw [fndaCountFor, List.countP_cons, hp] at hu
          simp only [eq_self_iff_true, if_true] at hu
          omega
        have hc : c ≠ 0 := by
          rw [fn_executed, List.find?_cons] at hx
          rw [hp] at hx
          simpa using hx
        have hhit : fnda_hit_for fn (Line.FNDA c n) = true := by
          simp [fnda_hit_for, hn, hc]
        have hresthit : rest.countP (fnda_hit_for fn) = 0 := by
          have := countP_hit_le_countP_fnda fn rest
          omega
        rw [List.countP_cons, hhit, hresthit]
        simp
      | SF p => simp [is_fnda_line_for_fn] at hp
      | FN a b => simp [is_fnda_line_for_fn] at hp
      | FNH a => simp [is_fnda_line_for_fn] at hp
      | DA a b => simp [is_fnda_line_for_fn] at hp
      | LH a => simp [is_fnda_line_for_fn] at hp
      | other s => simp [is_fnda_line_for_fn] at hp
    · have hpf : is_fnda_line_for_fn l fn = false := by
        cases hv : is_fnda_line_for_fn l fn
        · rfl
        · exact absurd hv hp
      have hu2 : fndaCountFor rest fn = 1 := by
        rw [fndaCountFor, List.countP_cons, hpf] at hu
        simp only [Bool.false_eq_true, if_false] at hu
        rw [fndaCountFor]
        omega
      have hx2 : fn_executed rest fn = true := by
        rw [fn_executed_cons_of_not_fnda l rest fn hpf] at hx
        exact hx
      have hhit : fnda_hit_for fn l = false := by
        cases hv : fnda_hit_for fn l
        · rfl
        · exfalso
          apply hp
          cases l <;> simp_all [fnda_hit_for, is_fnda_line_for_fn]
      rw [List.countP_cons, hhit, ih fn hu2 hx2]
      simp

theorem eraseLine_fnda_nonzero_head (fr : FnRecord) (K : Nat) (l : Line) :
    (if fnda_nonzero (eraseLine fr K l) then (1 : Nat) else 0) +
        (if fnda_hit_for fr.name l then 1 else 0) =
      (if fnda_nonzero l then 1 else 0) := by
  cases l with
  | FNDA c n =>
    by_cases hn : n = fr.name <;> by_cases hc : c = 0 <;>
      simp [eraseLine, fnda_nonzero, fnda_hit_for, hn, hc]
  | DA ln c =>
    by_cases hin : in_span fr ln = true <;>
      simp [eraseLine, fnda_nonzero, fnda_hit_for, hin]
  | SF p => rfl
  | FN a b => rfl
  | FNH a => simp [eraseLine, fnda_nonzero, fnda_hit_for]
  | LH a => simp [eraseLine, fnda_nonzero, fnda_hit_for]
  | other s => rfl

theorem map_eraseLine_countFNDA (fr : FnRecord) (K : Nat) :
    ∀ r : List Line,
      countNonzeroFNDA (r.map (eraseLine fr K)) + r.countP (fnda_hit_for fr.name) =
        countNonzeroFNDA r := by
  intro r
  induction r with
  | nil => rfl
  | cons l rest ih =>
    simp only [countNonzeroFNDA, List.map_cons, List.countP_cons] at ih ⊢
    have h1 := eraseLine_fnda_nonzero_head fr K l
    omega

theorem eraseLine_da_nonzero_head (fr : FnRecord) (K : Nat) (l : Line) :
    (if da_nonzero (eraseLine fr K l) then (1 : Nat) else 0) +
        (if hit_in_span fr l then 1 else 0) =
      (if da_nonzero l then 1 else 0) := by
  cases l with
  | DA ln c =>
    by_cases hin : in_span fr ln = true <;> by_cases hc : c = 0 <;>
      simp [eraseLine, da_nonzero, hit_in_span, hin, hc]
  | FNDA c n =>
    by_cases hn : n = fr.name <;>
      simp [eraseLine, da_nonzero, hit_in_span, hn]
  | SF p => rfl
  | FN a b => rfl
  | FNH a => simp [eraseLine, da_nonzero, hit_in_span]
  | LH a => simp [eraseLine, da_nonzero, hit_in_span]
  | other s => rfl

theorem map_eraseLine_countDA (fr : FnRecord) (K : Nat) :
    ∀ r : List Line,
      countNonzeroDA (r.map (eraseLine fr K)) + executed_total r fr =
        countNonzeroDA r := by
  intro r
  induction r with
  | nil => rfl
  | cons l rest ih =>
    simp only [countNonzeroDA, executed_total, List.map_cons, List.countP_cons] at ih ⊢
    have h1 := eraseLine_da_nonzero_head fr K l
    omega

theorem mem_fnh_map_eraseLine (fr : FnRecord) (K : Nat) :
    ∀ (r : List Line) (c : Int),
      (Line.FNH c ∈ r.map (eraseLine fr K)) ↔ Line.FNH (c + 1) ∈ r := by
  intro r
  induction r with
  | nil => simp
  | cons l rest ih =>
    intro c
    cases l with
    | FNH c0 =>
      simp only [List.map_cons, List.mem_cons, eraseLine, Line.FNH.injEq, ih]
      exact or_congr ⟨fun h => by omega, fun h => by omega⟩ Iff.rfl
    | FNDA c0 n =>
      by_cases hn : n = fr.name <;> simp [eraseLine, hn, ih]
    | DA ln c0 =>
      by_cases hin : in_span fr ln = true <;> simp [eraseLine, hin, ih]
    | SF p => simp [eraseLine, ih]
    | FN a b => simp [eraseLine, ih]
    | LH c0 => simp [eraseLine, ih]
    | other s => simp [eraseLine, ih]

theorem mem_lh_map_eraseLine (fr : FnRecord) (K : Nat) :
    ∀ (r : List Line) (c : Int),
      (Line.LH c ∈ r.map (eraseLine fr K)) ↔ Line.LH (c + (K : Int)) ∈ r := by
  intro r
  induction r with
  | nil => simp
  | cons l rest ih =>
    intro c
    cases l with
    | LH c0 =>
      simp only [List.map_cons, List.mem_cons, eraseLine, Line.LH.injEq, ih]
      exact or_congr ⟨fun h => by omega, fun h => by omega⟩ Iff.rfl
    | FNDA c0 n =>
      by_cases hn : n = fr.name <;> simp [eraseLine, hn, ih]
    | DA ln c0 =>
      by_cases hin : in_span fr ln = true <;> simp [eraseLine, hin, ih]
    | SF p => simp [eraseLine, ih]
    | FN a b => simp [eraseLine, ih]
    | FNH c0 => simp [eraseLine, ih]
    | other s => simp [eraseLine, ih]

theorem eraseLine_is_da (fr : FnRecord) (K : Nat) (l : Line) :
    is_da_line (eraseLine fr K l) = is_da_line l := by
  cases l with
  | FNDA c n => by_cases hn : n = fr.name <;> simp [eraseLine, is_da_line, hn]
  | DA ln c => by_cases hin : in_span fr ln = true <;> simp [eraseLine, is_da_line, hin]
  | SF p => rfl
  | FN a b => rfl
  | FNH a => rfl
  | LH a => rfl
  | other s => rfl

theorem eraseLine_is_lh (fr : FnRecord) (K : Nat) (l : Line) :
    is_lh_line (eraseLine fr K l) = is_lh_line l := by
  cases l with
  | FNDA c n => by_cases hn : n = fr.name <;> simp [eraseLine, is_lh_line, hn]
  | DA ln c => by_cases hin : in_span fr ln = true <;> simp [eraseLine, is_lh_line, hin]
  | SF p => rfl
  | FN a b => rfl
  | FNH a => rfl
  | LH a => rfl
  | other s => rfl

theorem map_eraseLine_any_da (fr : FnRecord) (K : Nat) :
    ∀ r : List Line, (r.map (eraseLine fr K)).any is_da_line = r.any is_da_line := by
  intro r
  induction r with
  | nil => rfl
  | cons l rest ih =>
    rw [List.map_cons, List.any_cons, List.any_cons, eraseLine_is_da, ih]

theorem map_eraseLine_daBeforeLH (fr : FnRecord) (K : Nat) :
    ∀ r : List Line, daBeforeLHB (r.map (eraseLine fr K)) = daBeforeLHB r := by
  intro r
  induction r with
  | nil => rfl
  | cons l rest ih =>
    rw [List.map_cons, daBeforeLHB, daBeforeLHB, eraseLine_is_lh,
      map_eraseLine_any_da, ih]

theorem erase_preserves_consistency (r : List Line) (fr : FnRecord)
    (hdl : daBeforeLHB r = true)
    (hu : fndaCountFor r fr.name = 1)
    (hx : fn_executed r fr.name = true)
    (hf : fnhOkB r = true) (hl : lhOkB r = true) :
    fnhOkB (erase_function_from_record r fr) = true ∧
      lhOkB (erase_function_from_record r fr) = true := by
  have hmap : erase_function_from_record r fr =
      r.map (eraseLine fr (executed_total r fr)) := by
    rw [erase_total_of_da_before_lh r fr hdl, spec_erase_total]
  have hfall := (List.all_eq_true).mp (by simpa [fnhOkB] using hf)
  have hlall := (List.all_eq_true).mp (by simpa [lhOkB] using hl)
  have hhit1 : r.countP (fnda_hit_for fr.name) = 1 :=
    countP_hit_of_unique_executed r fr.name hu hx
  have hcF := map_eraseLine_countFNDA fr (executed_total r fr) r
  have hcD := map_eraseLine_countDA fr (executed_total r fr) r
  constructor
  · rw [hmap, fnhOkB, List.all_eq_true]
    intro l hmem
    cases l with
    | FNH c =>
      have hmem2 : Line.FNH (c + 1) ∈ r :=
        (mem_fnh_map_eraseLine fr (executed_total r fr) r c).mp hmem
      have hval := hfall (Line.FNH (c + 1)) hmem2
      simp only [decide_eq_true_eq] at hval ⊢
      omega
    | SF p => rfl
    | FN a b => rfl
    | FNDA a b => rfl
    | DA a b => rfl
    | LH a => rfl
    | other s => rfl
  · rw [hmap, lhOkB, List.all_eq_true]
    intro l hmem
    cases l with
    | LH c =>
      have hmem2 : Line.LH (c + (executed_total r fr : Int)) ∈ r :=
        (mem_lh_map_eraseLine fr (executed_total r fr) r c).mp hmem
      have hval := hlall (Line.LH (c + (executed_total r fr : Int))) hmem2
      simp only [decide_eq_true_eq] at hval ⊢
      omega
    | SF p => rfl
    | FN a b => rfl
    | FNDA a b => rfl
    | DA a b => rfl
    | FNH a => rfl
    | other s => rfl

theorem aggregate_consistency_aux :
    ∀ (spans : List FnRecord) (r : List Line),
      daBeforeLHB r = true → SeqOkB r spans = true →
      fnhOkB r = true → lhOkB r = true →
      fnhOkB (eraseAll r spans) = true ∧ lhOkB (eraseAll r spans) = true := by
  intro spans
  induction spans with
  | nil =>
    intro r _ _ hf hl
    exact ⟨hf, hl⟩
  | cons fr frs ih =>
    intro r hdl hseq hf hl
    simp only [SeqOkB, Bool.and_eq_true, beq_iff_eq] at hseq
    obtain ⟨⟨hu, hx⟩, hseq2⟩ := hseq
    have hstep := erase_preserves_consistency r fr hdl hu hx hf hl
    have hdl2 : daBeforeLHB (erase_function_from_record r fr) = true := by
      rw [erase_total_of_da_before_lh r fr hdl, spec_erase_total,
        map_eraseLine_daBeforeLH]
      exact hdl
    have hfold : eraseAll r (fr :: frs) =
        eraseAll (erase_function_from_record r fr) frs := by
      simp [eraseAll]
    rw [hfold]
    exact ih _ hdl2 hseq2 hstep.1 hstep.2

/-- C3 counterexample: an initially consistent record whose LH line comes
before its DA line; a single erasure of an executed function (with its
unique FNDA line) leaves LH inconsistent with the rewritten DA lines. -/
theorem aggregate_consistency_counterexample :
    fnhOkB rLHEarly = true ∧ lhOkB rLHEarly = true ∧
      fndaCountFor rLHEarly "f" = 1 ∧ fn_executed rLHEarly "f" = true ∧
      lhOkB (erase_function_from_record rLHEarly frAt10) = false := by
  refine ⟨by decide, by decide, by decide, by decide, by decide⟩

/-- C3 (amended): for every record in which every DA line precedes every
LH line, if FNH and LH initially count the nonzero FNDA and DA lines,
then after any sequence of erasures in which each erased function has
exactly one FNDA line with nonzero count at the time of its erasure, FNH
still counts the nonzero FNDA lines and LH still counts the nonzero DA
lines. -/
theorem aggregate_consistency_after_erasures (r : List Line)
    (spans : List FnRecord)
    (hdl : daBeforeLHB r = true) (hseq : SeqOkB r spans = true)
    (hf : fnhOkB r = true) (hl : lhOkB r = true) :
    fnhOkB (eraseAll r spans) = true ∧ lhOkB (eraseAll r spans) = true :=
  aggregate_consistency_aux spans r hdl hseq hf hl

/-- Witness for C3 on the spec's scenario record, erasing helper. -/
theorem aggregate_consistency_after_erasures_witness :
    SeqOkB rScenario [⟨"helper", 10, some 19⟩] = true ∧
      fnhOkB (eraseAll rScenario [⟨"helper", 10, some 19⟩]) = true ∧
      lhOkB (eraseAll rScenario [⟨"helper", 10, some 19⟩]) = true := by
  have h := aggregate_consistency_after_erasures rScenario
    [⟨"helper", 10, some 19⟩] (by decide) (by decide) (by decide) (by decide)
  exact ⟨by decide, h.1, h.2⟩

theorem fixup_ends_length : ∀ ts : List FnRecord, (fixup_ends ts).length = ts.length
  | [] => rfl
  | [_] => rfl
  | t :: t2 :: rest => by
    rw [fixup_ends]
    simp [fixup_ends_length (t2 :: rest)]

theorem fixup_ends_map_name_start :
    ∀ ts : List FnRecord,
      (fixup_ends ts).map (fun t => (t.name, t.start)) =
        ts.map fun t => (t.name, t.start)
  | [] => rfl
  | [_] => rfl
  | t :: t2 :: rest => by
    rw [fixup_ends, List.map_cons, List.map_cons,
      fixup_ends_map_name_start (t2 :: rest)]

theorem fixup_ends_isEmpty (ts : List FnRecord) :
    (fixup_ends ts).isEmpty = ts.isEmpty := by
  cases ts with
  | nil => rfl
  | cons a t =>
    cases t with
    | nil => rfl
    | cons b t2 => rfl

theorem fixup_ends_map_end :
    ∀ ts : List FnRecord, (∀ t ∈ ts, t.end_ = none) →
      (fixup_ends ts).map FnRecord.end_ =
        (ts.drop 1).map (fun t => some (t.start - 1)) ++
          (if ts.isEmpty then [] else [none])
  | [], _ => rfl
  | [t], h => by
    have ht : t.end_ = none := h t (List.mem_cons_self t [])
    simp [fixup_ends, ht]
  | t :: t2 :: rest, h => by
    rw [fixup_ends, List.map_cons,
      fixup_ends_map_end (t2 :: rest) (fun x hx => h x (List.mem_cons_of_mem t hx))]
    simp

theorem fn_tuples_length :
    ∀ r : List Line, (fn_tuples r).length = r.countP is_fn_line := by
  intro r
  induction r with
  | nil => rfl
  | cons l rest ih =>
    cases l <;> simp [fn_tuples, is_fn_line, List.countP_cons,
      List.filterMap_cons] <;> simp [fn_tuples] at ih <;> omega

theorem fn_tuples_map_name_start :
    ∀ r : List Line,
      (fn_tuples r).map (fun t => (t.name, t.start)) = r.filterMap fn_line_data := by
  intro r
  induction r with
  | nil => rfl
  | cons l rest ih =>
    cases l <;> simp [fn_tuples, fn_line_data, List.filterMap_cons] <;>
      simp [fn_tuples] at ih <;> exact ih

theorem fn_tuples_end_none :
    ∀ r : List Line, ∀ t ∈ fn_tuples r, t.end_ = none := by
  intro r
  induction r with
  | nil => intro t ht; simp [fn_tuples] at ht
  | cons l rest ih =>
    intro t ht
    cases l with
    | FN ln n =>
      rw [fn_tuples, List.filterMap_cons] at ht
      simp at ht
      rcases ht with h | h
      · rw [h]
      · exact ih t (by simpa [fn_tuples] using h)
    | SF p =>
      rw [fn_tuples, List.filterMap_cons] at ht
      exact ih t (by simpa [fn_tuples] using ht)
    | FNDA a b =>
      rw [fn_tuples, List.filterMap_cons] at ht
      exact ih t (by simpa [fn_tuples] using ht)
    | FNH a =>
      rw [fn_tuples, List.filterMap_cons] at ht
      exact ih t (by simpa [fn_tuples] using ht)
    | DA a b =>
      rw [fn_tuples, List.filterMap_cons] at ht
      exact ih t (by simpa [fn_tuples] using ht)
    | LH a =>
      rw [fn_tuples, List.filterMap_cons] at ht
      exact ih t (by simpa [fn_tuples] using ht)
    | other s =>
      rw [fn_tuples, List.filterMap_cons] at ht
      exact ih t (by simpa [fn_tuples] using ht)

theorem fixup_ends_map_start (ts : List FnRecord) :
    (fixup_ends ts).map FnRecord.start = ts.map FnRecord.start := by
  have h := fixup_ends_map_name_start ts
  have h2 := congrArg (List.map Prod.snd) h
  rw [List.map_map, List.map_map] at h2
  exact h2

theorem drop_one_start_shape (l : List FnRecord) :
    (l.drop 1).map (fun t => some (t.start - 1)) =
      ((l.map FnRecord.start).drop 1).map (fun s => some (s - 1)) := by
  cases l with
  | nil => rfl
  | cons a t => simp [List.map_map]

/-- C9: the Function Extractor returns exactly one span per FN line, in
declaration order, with each span's name and start taken from its FN line;
every span but the last ends at the next span's start minus one, and the
last span's end is left unresolved (none). -/
theorem fns_in_record_spans_spec (r : List Line) :
    (fns_in_record r).length = r.countP is_fn_line ∧
      (fns_in_record r).map (fun t => (t.name, t.start)) = r.filterMap fn_line_data ∧
      (fns_in_record r).map FnRecord.end_ =
        ((fns_in_record r).drop 1).map (fun t => some (t.start - 1)) ++
          (if (fns_in_record r).isEmpty then [] else [none]) := by
  refine ⟨?_, ?_, ?_⟩
  · rw [fns_in_record, fixup_ends_length, fn_tuples_length]
  · rw [fns_in_record, fixup_ends_map_name_start, fn_tuples_map_name_start]
  · rw [fns_in_record, fixup_ends_map_end (fn_tuples r) (fn_tuples_end_none r),
      fixup_ends_isEmpty, drop_one_start_shape (fixup_ends (fn_tuples r)),
      fixup_ends_map_start, ← drop_one_start_shape]

/-- C5: when an anchor's name has no node in the call graph, the query
skips that anchor (treating it as not reaching the target) exactly when
the (anchor, target) pair is on the hard-coded allow-list, and otherwise
propagates the NodeNotFound failure. -/
theorem absent_anchor_allowlist_policy (g : List (String × String))
    (c : FnRecord) (cs : List FnRecord) (fn : String)
    (h : c.name ∉ graphNodes g) :
    nothing_calls_fn g (c :: cs) fn =
      if allow_pair c.name fn then nothing_calls_fn g cs fn
      else Except.error ⟨c.name, fn⟩ := by
  rw [nothing_calls_fn]
  have hpath : nx_has_path g c.name fn = Except.error ⟨c.name, fn⟩ := by
    rw [nx_has_path, if_neg]
    intro hc
    exact h hc.1
  rw [hpath]
  simp only [allow_pair, Bool.or_eq_true, Bool.and_eq_true, beq_iff_eq,
    List.elem_eq_mem, decide_eq_true_eq, List.mem_cons,
    List.not_mem_nil, or_false]
  split_ifs with hA hB hC <;> first | rfl | tauto

/-- Witness for C5, allow-listed side: the absent anchor pcmk__starts_with
with target ends_with is skipped and the query falls through to true. -/
theorem absent_anchor_allowlist_policy_witness :
    nothing_calls_fn [] [⟨"pcmk__starts_with", 1, none⟩] "ends_with" =
      Except.ok true := by
  have h := absent_anchor_allowlist_policy [] ⟨"pcmk__starts_with", 1, none⟩ []
    "ends_with" (by decide)
  rw [h]
  rfl

theorem subset_iterate_stepSet (g : List (String × String)) :
    ∀ (k : Nat) (s : List String) (x : String), x ∈ s → x ∈ (stepSet g)^[k] s := by
  intro k
  induction k with
  | zero => intro s x hx; simpa using hx
  | succ k ih =>
    intro s x hx
    rw [Function.iterate_succ_apply]
    exact ih _ x (by rw [stepSet]; exact List.mem_append_left _ hx)

theorem reachableB_self (g : List (String × String)) (s : String) :
    reachableB g s s = true := by
  rw [reachableB, decide_eq_true_eq, reachSet]
  exact subset_iterate_stepSet g _ [s] s (by simp)

/-- C10 counterexample: an anchor equal to the target but absent from the
graph makes the query raise NodeNotFound instead of reporting the target
reachable. -/
theorem self_anchor_absent_counterexample :
    nothing_calls_fn [] [⟨"f", 1, none⟩] "f" =
        Except.error ⟨"f", "f"⟩ ∧
      nothing_calls_fn [] [⟨"f", 1, none⟩] "f" ≠ Except.ok false := by
  constructor
  · rfl
  · intro h
    exact Except.noConfusion ((rfl :
      nothing_calls_fn [] [⟨"f", 1, none⟩] "f" =
        Except.error ⟨"f", "f"⟩).symm.trans h)

/-- C10 (amended): a reachability query whose target is a node of the
graph and whose anchors all are nodes of the graph reports the target
reachable whenever the target is among the anchors (a directed path of
length 0 counts). -/
theorem self_anchor_reachable_when_present (g : List (String × String))
    (fn : String) (hfn : fn ∈ graphNodes g) :
    ∀ candidates : List FnRecord,
      (∀ c ∈ candidates, c.name ∈ graphNodes g) →
      (∃ c ∈ candidates, c.name = fn) →
      nothing_calls_fn g candidates fn = Except.ok false := by
  intro candidates
  induction candidates with
  | nil =>
    intro _ hself
    simp at hself
  | cons c cs ih =>
    intro hall hself
    rw [nothing_calls_fn]
    have hc : c.name ∈ graphNodes g := hall c (List.mem_cons_self c cs)
    have hpath : nx_has_path g c.name fn = Except.ok (reachableB g c.name fn) := by
      rw [nx_has_path, if_pos ⟨hc, hfn⟩]
    rw [hpath]
    by_cases hr : reachableB g c.name fn = true
    · rw [hr]
    · have hne : c.name ≠ fn := by
        intro he
        rw [he, reachableB_self] at hr
        exact hr rfl
      have hself2 : ∃ x ∈ cs, x.name = fn := by
        rcases hself with ⟨x, hx, hxe⟩
        rcases List.mem_cons.mp hx with hxc | hxc
        · exact absurd (hxc ▸ hxe) hne
        · exact ⟨x, hxc, hxe⟩
      have hBfalse : reachableB g c.name fn = false := by
        cases hv : reachableB g c.name fn
        · rfl
        · exact absurd hv hr
      rw [hBfalse]
      exact ih (fun x hx => hall x (List.mem_cons_of_mem c hx)) hself2

/-- Witness for the amended C10 on a one-edge graph whose anchor equals
the target. -/
theorem self_anchor_reachable_when_present_witness :
    nothing_calls_fn [("f", "g")] [⟨"f", 1, none⟩] "f" = Except.ok false :=
  self_anchor_reachable_when_present [("f", "g")] "f" (by decide)
    [⟨"f", 1, none⟩] (by decide) ⟨⟨"f", 1, none⟩, by decide, rfl⟩

/-- C7: an executed function that is neither static nor a restricted-name
proxy is erased by the engine step exactly when its name is absent from
the tested set, and left untouched when present; the anchor set is
unchanged either way. -/
theorem public_untested_erased (tested static : List String)
    (cg : List (String × String)) (r : List Line) (anchors : List FnRecord)
    (fr : FnRecord)
    (hexec : fn_executed r fr.name = true)
    (hproxy : private_fn_with_tested_public tested fr.name = false)
    (hstatic : is_static_fn static fr.name = false) :
    process_fn_step tested static cg (r, anchors) fr =
      Except.ok ((if fr.name ∈ tested then r
                  else erase_function_from_record r fr), anchors) := by
  by_cases ht : fr.name ∈ tested <;>
    simp [process_fn_step, hexec, hproxy, hstatic, ht]

/-- Witness for C7: the executed, untested public function f is erased. -/
theorem public_untested_erased_witness :
    process_fn_step ["g"] [] [] ([Line.FNDA 1 "f"], []) ⟨"f", 1, none⟩ =
      Except.ok ([Line.FNDA 0 "f"], []) := by
  have h := public_untested_erased ["g"] [] [] [Line.FNDA 1 "f"] []
    ⟨"f", 1, none⟩ (by decide) (by decide) (by decide)
  rw [h]
  rfl

theorem processFns_append (tested static : List String)
    (cg : List (String × String)) :
    ∀ (l1 l2 : List FnRecord) (st : List Line × List FnRecord),
      processFns tested static cg (l1 ++ l2) st =
        match processFns tested static cg l1 st with
        | Except.error e => Except.error e
        | Except.ok st2 => processFns tested static cg l2 st2 := by
  intro l1
  induction l1 with
  | nil => intro l2 st; rfl
  | cons fr rest ih =>
    intro l2 st
    rw [List.cons_append, processFns, processFns]
    cases process_fn_step tested static cg st fr with
    | error e => rfl
    | ok st2 => exact ih l2 st2

theorem proxy_step (tested static : List String) (cg : List (String × String))
    (r : List Line) (anchors : List FnRecord) (fr : FnRecord)
    (hexec : fn_executed r fr.name = true)
    (hproxy : private_fn_with_tested_public tested fr.name = true) :
    process_fn_step tested static cg (r, anchors) fr =
      Except.ok (r, anchors ++ [fr]) := by
  simp [process_fn_step, hexec, hproxy]

/-- C6 counterexample: the static function helper is declared before the
proxy pcmk__pub, so when helper is examined the proxy has not yet been
appended to the anchor list: helper's coverage is erased even though the
call graph has the edge pcmk__pub to helper and pcmk__pub matches the
restricted-name proxy convention.  The claim's clause regardless of where
in the record the proxy function is declared is false. -/
theorem proxy_position_counterexample :
    process_record ["pcmk_pub"] ["helper"] [("pcmk__pub", "helper")] rProxy =
        Except.ok rProxyOut ∧
      Line.FNDA 3 "helper" ∈ rProxy ∧
      Line.FNDA 0 "helper" ∈ rProxyOut ∧
      private_fn_with_tested_public ["pcmk_pub"] "pcmk__pub" = true ∧
      ("pcmk__pub", "helper") ∈ [("pcmk__pub", "helper")] := by
  refine ⟨rfl, by decide, by decide, by decide, by decide⟩

/-- C6 (amended): when the engine reaches an executed function matching
the restricted-name proxy convention, it keeps the record unchanged at
that step and appends the function to the anchor list used for every
function examined after it; functions examined before the proxy were
checked against the anchor list without it. -/
theorem proxy_appended_to_anchors (tested static : List String)
    (cg : List (String × String)) (pre post : List FnRecord) (fr : FnRecord)
    (st : List Line × List FnRecord) (r : List Line) (anchors : List FnRecord)
    (hpre : processFns tested static cg pre st = Except.ok (r, anchors))
    (hexec : fn_executed r fr.name = true)
    (hproxy : private_fn_with_tested_public tested fr.name = true) :
    processFns tested static cg (pre ++ fr :: post) st =
      processFns tested static cg post (r, anchors ++ [fr]) := by
  rw [processFns_append, hpre]
  show processFns tested static cg (fr :: post) (r, anchors) = _
  rw [processFns, proxy_step tested static cg r anchors fr hexec hproxy]

/-- Witness for the amended C6: the proxy pcmk__pub becomes an anchor for
the remainder of its record's processing. -/
theorem proxy_appended_to_anchors_witness :
    processFns ["pcmk_pub"] [] [] [⟨"pcmk__pub", 20, none⟩]
        ([Line.FNDA 5 "pcmk__pub"], []) =
      processFns ["pcmk_pub"] [] [] []
        ([Line.FNDA 5 "pcmk__pub"], [⟨"pcmk__pub", 20, none⟩]) := by
  have h := proxy_appended_to_anchors ["pcmk_pub"] [] [] [] []
    ⟨"pcmk__pub", 20, none⟩ ([Line.FNDA 5 "pcmk__pub"], [])
    [Line.FNDA 5 "pcmk__pub"] [] rfl (by decide) (by decide)
  simpa using h

theorem run_records_skip (tested static : List String)
    (getcg : List Line → Option (List (String × String)))
    (r : List Line) (rest : List (List Line)) (h : getcg r = none) :
    run_records tested static getcg (r :: rest) =
      run_records tested static getcg rest := by
  rw [run_records, h]

/-- C1: a record whose source file has no matching call-graph artifact is
omitted from the output entirely: the source's continue skips the print,
so nothing is emitted for it.  The claim (and the spec) say the record
must be passed through unchanged in its input position. -/
theorem missing_callgraph_record_dropped :
    run_records [] [] (fun _ => none) [rNoGraph] = Except.ok [] ∧
      ([] : List (List Line)) ≠ [rNoGraph] := by
  constructor
  · rw [run_records_skip [] [] (fun _ => none) rNoGraph [] rfl]
    rfl
  · decide
